import Mathlib

set_option maxHeartbeats 1000000

/-!
Verification of the chaining hashmap in `src/hashmap2/simple_hashmap.go`
(package `main`, repository `mieciu/golang-generics`).

Modelling conventions:

* A Go chain `*KVPair[K, V]` (a singly linked list of key/value nodes) is
  modelled as `List (K × V)`; the `nil` chain is `[]`.
* The struct `HashMap[K comparable, V any]` is the record `HashMap K V`
  below, with the same four fields.
* The key-hashing pipeline of `hash` (lines 129-144) serializes the key with
  `encoding/gob`, digests it with sha256 and takes `bigInt.Int64()` of the
  digest.  That int64 value is abstracted as a parameter `hv : K → Int`;
  everything after `bigInt.Int64()` (the truncated modulo `%` of Go and the
  negation fix-up) is modelled faithfully in `hashIndex`.  Go's `%` on int64
  is truncated division remainder, which is exactly `Int.tmod`.
* Mutating methods become state-to-state functions.  `set` and `rehash` are
  mutually reentrant in the source (`rehash` reinserts every entry through
  `set`), and for adversarial hash values that recursion need not terminate,
  so both take a fuel argument and return `none` when the fuel runs out.
  The recursion is structural on the fuel so that every operation evaluates
  inside the kernel.
* Go's `m.buckets[hashedKey]` panics when the index is out of range; the
  model reads with `List.getD _ []` and writes with `List.set` (a no-op out
  of range).  In every state the map code can actually reach, the index is
  in range (proved below), so the two semantics agree there.
-/

section Defs

variable {K V : Type}

/-- Source lines 19-25: the `HashMap` struct.  `capacity` is the Go `int64`
field, `listLen` counts nodes visited during a running `set`, and
`rehashThreshold` is the chain length that triggers a rehash. -/
structure HashMap (K V : Type) where
  capacity : Int
  buckets : List (List (K × V))
  listLen : Nat
  rehashThreshold : Nat
deriving DecidableEq

/-- Source lines 129-144, after `bigInt.Int64()`: reduce the (abstracted)
int64 digest `hv key` modulo the capacity with Go's truncated `%`
(`Int.tmod`), then negate a negative remainder. -/
def hashIndex (hv : K → Int) (capacity : Int) (key : K) : Int :=
  let hashAfterModulo : Int := Int.tmod (hv key) capacity
  if hashAfterModulo < 0 then -hashAfterModulo else hashAfterModulo

/-- The bucket index actually used to address `m.buckets` (the Go code uses
the `int` result of `hash` directly as a slice index). -/
def bucketIdx (hv : K → Int) (m : HashMap K V) (key : K) : Nat :=
  (hashIndex hv m.capacity key).toNat

/-- Source lines 29-33: the chain walk inside `get` (first node whose key
equals the lookup key wins). -/
def chainLookup [DecidableEq K] (key : K) : List (K × V) → Option V
  | [] => none
  | (k', v') :: rest => if k' = key then some v' else chainLookup key rest

/-- Source lines 27-35: `get` hashes the key and walks the chain of that
bucket; `\x2aV` becomes `Option V`. -/
def HashMap.get [DecidableEq K] (hv : K → Int) (m : HashMap K V) (key : K) : Option V :=
  chainLookup key (m.buckets.getD (bucketIdx hv m key) [])

/-- Source lines 37-39: `resetListLen`, installed by `defer` at the top of
`set` and therefore executed when `set` returns. -/
def HashMap.resetListLen (m : HashMap K V) : HashMap K V :=
  { m with listLen := 0 }

/-- Source lines 90-96: `noCollidingHashes` builds `allHashes` with
`make([]int, len(keyspace))` and fills it by index, so `allHashes` always
has exactly the length of `keyspace`; it returns
`len(allHashes) < len(keyspace)`. -/
def noCollidingHashes (hv : K → Int) (capacity : Int) (keyspace : List K) : Bool :=
  let allHashes : List Int := keyspace.map (fun key => hashIndex hv capacity key)
  decide (allHashes.length < keyspace.length)

/-- Source lines 79-82: the `for ok := true; ok; ok = m.noCollidingHashes(keyspace)`
loop.  The body (`m.capacity = m.capacity * 2`) runs first, then the
condition is evaluated at the already-doubled capacity.  The loop gets a
fuel bound; it returns `none` if the fuel runs out before the condition
turns false. -/
def rehashCapacityLoop (hv : K → Int) (keyspace : List K) : Nat → Int → Option Int
  | 0, _ => none
  | fuel + 1, capacity =>
    let capacity2 := capacity * 2
    if noCollidingHashes hv capacity2 keyspace then
      rehashCapacityLoop hv keyspace fuel capacity2
    else
      some capacity2

/-- Source lines 109-116 of `remove`: the `prev`/`curr` walk that splices the
first node whose key matches out of the tail of the chain. -/
def removeChainAux [DecidableEq K] (key : K) : List (K × V) → List (K × V)
  | [] => []
  | (k', v') :: rest => if k' = key then rest else (k', v') :: removeChainAux key rest

/-- Source lines 98-117: `remove`.  Empty bucket: no-op.  Head match: the
bucket head becomes the head's successor.  Otherwise splice the first match
out of the tail (or do nothing when there is none). -/
def HashMap.remove [DecidableEq K] (hv : K → Int) (m : HashMap K V) (key : K) : HashMap K V :=
  let hashedKey := bucketIdx hv m key
  match m.buckets.getD hashedKey [] with
  | [] => m
  | (k0, v0) :: rest =>
    if k0 = key then
      { m with buckets := m.buckets.set hashedKey rest }
    else
      { m with buckets := m.buckets.set hashedKey ((k0, v0) :: removeChainAux key rest) }

/-- Phase of the `set` loop (lines 48-60) after a rehash has replaced
`m.buckets`: the loop keeps walking the now-detached old chain (`rest`).
Mutations of those stale nodes (the in-place value write on a key match,
and `pointer.Next = &kvPairToInsert` on the last node) are invisible in the
live table, but `m.listLen++` and the `m.listLen >= m.rehashThreshold`
check still act on the live state.  When the walk appends the new node to
the stale chain, the next iteration necessarily visits that node, matches
the key and breaks, so that final iteration is inlined (it only increments
`listLen`, which the deferred reset clears anyway). -/
def setChainStale [DecidableEq K] (doRehash : HashMap K V → Option (HashMap K V))
    (key : K) : HashMap K V → List (K × V) → Option (HashMap K V)
  | m, [] => some m.resetListLen
  | m, (k', _) :: rest =>
    let m1 : HashMap K V := { m with listLen := m.listLen + 1 }
    if k' = key then
      some m1.resetListLen
    else if rest.isEmpty then
      if m1.rehashThreshold ≤ m1.listLen then
        match doRehash m1 with
        | none => none
        | some m2 => some m2.resetListLen
      else
        some m1.resetListLen
    else
      if m1.rehashThreshold ≤ m1.listLen then
        match doRehash m1 with
        | none => none
        | some m2 => setChainStale doRehash key m2 rest
      else
        setChainStale doRehash key m1 rest

/-- Source lines 48-60: the chain walk of `set` while the walked chain is
still the live chain stored in the bucket.  `acc` is the already-passed
prefix of the chain, `rest` the part from `pointer` on; the live bucket is
always `acc ++ rest` (mutations write the bucket through `List.set`).
Per iteration, in source order: `m.listLen++`; on key match overwrite the
value in place and break (no rehash check on this path); else if the node
is the last one, append the new node; then, if `listLen` reached the
threshold, rehash — after which the walk continues on the stale old chain
(`setChainStale`).  As in `setChainStale`, the iteration that visits a
just-appended node is inlined: it matches the key, rewrites the value with
itself and breaks. -/
def setChainLive [DecidableEq K] (doRehash : HashMap K V → Option (HashMap K V))
    (h : Nat) (key : K) (value : V) :
    HashMap K V → List (K × V) → List (K × V) → Option (HashMap K V)
  | m, _, [] => some m.resetListLen
  | m, acc, (k', v') :: rest =>
    let m1 : HashMap K V := { m with listLen := m.listLen + 1 }
    if k' = key then
      some (HashMap.resetListLen
        { m1 with buckets := m1.buckets.set h (acc ++ (key, value) :: rest) })
    else if rest.isEmpty then
      let m2 : HashMap K V :=
        { m1 with buckets := m1.buckets.set h (acc ++ [(k', v'), (key, value)]) }
      if m2.rehashThreshold ≤ m2.listLen then
        match doRehash m2 with
        | none => none
        | some m3 => some m3.resetListLen
      else
        some m2.resetListLen
    else
      if m1.rehashThreshold ≤ m1.listLen then
        match doRehash m1 with
        | none => none
        | some m2 => setChainStale doRehash key m2 rest
      else
        setChainLive doRehash h key value m1 (acc ++ [(k', v')]) rest

/-- Source lines 41-62: the body of `set` given a way to run `rehash`.
Empty bucket: install a one-node chain.  Otherwise run the chain walk.
Every exit applies the deferred `resetListLen`. -/
def setBody [DecidableEq K] (hv : K → Int) (doRehash : HashMap K V → Option (HashMap K V))
    (m : HashMap K V) (key : K) (value : V) : Option (HashMap K V) :=
  let hashedKey := bucketIdx hv m key
  match m.buckets.getD hashedKey [] with
  | [] =>
    some (HashMap.resetListLen
      { m with buckets := m.buckets.set hashedKey [(key, value)] })
  | chain => setChainLive doRehash hashedKey key value m [] chain

/-- Source lines 85-87: reinsert every collected entry through `set`. -/
def reinsertAll (doSet : HashMap K V → K → V → Option (HashMap K V)) :
    HashMap K V → List (K × V) → Option (HashMap K V)
  | m, [] => some m
  | m, entry :: rest =>
    match doSet m entry.1 entry.2 with
    | none => none
    | some m' => reinsertAll doSet m' rest

/-- Source lines 65-88: the body of `rehash` given a way to run `set`.
Flatten all chains in bucket order into `allElements`; build `keyspace` as
the Go code does (`make([]K, len(allElements))` prepends that many zero
values of `K`, modelled with `default`, before the keys are appended); run
the doubling loop; replace the bucket table by a fresh empty one of the new
capacity; reinsert every snapshot entry through `set`. -/
def rehashBody [Inhabited K] (hv : K → Int) (doSet : HashMap K V → K → V → Option (HashMap K V))
    (fuel : Nat) (m : HashMap K V) : Option (HashMap K V) :=
  let allElements : List (K × V) := m.buckets.flatten
  let keyspace : List K :=
    List.replicate allElements.length default ++ allElements.map Prod.fst
  match rehashCapacityLoop hv keyspace (fuel + 1) m.capacity with
  | none => none
  | some newCapacity =>
    reinsertAll doSet
      { m with capacity := newCapacity, buckets := List.replicate newCapacity.toNat [] }
      allElements

/-- Request type used to tie the `set`/`rehash` mutual recursion into a
single function that is structural on the fuel. -/
inductive Request (K V : Type) where
  | setReq (m : HashMap K V) (key : K) (value : V)
  | rehashReq (m : HashMap K V)

/-- Fuelled interpreter for `set` and `rehash`.  Each `set`-triggered
`rehash` and each `rehash`-triggered reinsertion burns one unit of fuel;
`none` means the fuel ran out (the Go recursion can really diverge when
every capacity keeps all keys colliding, see section 4.4 of the spec). -/
def execReq [DecidableEq K] [Inhabited K] (hv : K → Int) :
    Nat → Request K V → Option (HashMap K V)
  | 0, _ => none
  | fuel + 1, Request.setReq m key value =>
    setBody hv (fun s => execReq hv fuel (Request.rehashReq s)) m key value
  | fuel + 1, Request.rehashReq m =>
    rehashBody hv (fun s k v => execReq hv fuel (Request.setReq s k v)) fuel m

/-- Source lines 41-62: `set`, with fuel. -/
def HashMap.set [DecidableEq K] [Inhabited K] (hv : K → Int) (fuel : Nat)
    (m : HashMap K V) (key : K) (value : V) : Option (HashMap K V) :=
  execReq hv fuel (Request.setReq m key value)

/-- Source lines 65-88: `rehash`, with fuel. -/
def HashMap.rehash [DecidableEq K] [Inhabited K] (hv : K → Int) (fuel : Nat)
    (m : HashMap K V) : Option (HashMap K V) :=
  execReq hv fuel (Request.rehashReq m)

/-- Source lines 119-127: `MakeHashMap` with `defaultCapacity = 4` and
`defaultRehashThreshold = 2`; `listLen` starts at Go's zero value. -/
def MakeHashMap : HashMap K V :=
  { capacity := 4
    buckets := List.replicate 4 []
    listLen := 0
    rehashThreshold := 2 }

/-- All entries currently stored, in bucket order then chain order (this is
the `allElements` snapshot that `rehash` takes, lines 66-73). -/
def tableEntries (m : HashMap K V) : List (K × V) :=
  m.buckets.flatten

/-- The keys currently stored, in table order. -/
def tableKeys (m : HashMap K V) : List K :=
  (tableEntries m).map Prod.fst

/-- Total number of entries stored in the map. -/
def entryCount (m : HashMap K V) : Nat :=
  (tableEntries m).length

end Defs

section PropDefs

variable {K V : Type} [DecidableEq K] [Inhabited K]

/-- Concrete abstract hash used for witnesses: the identity embedding of
`Nat` keys into `Int`. -/
def hvNat : Nat → Int := fun n => (n : Int)

/-- Structural invariant of committed map states, minus the chain-length
bound: positive capacity, bucket table of exactly `capacity` slots, the
default threshold 2, every stored entry sitting in the bucket its key
hashes to under the current capacity, and no key stored twice. -/
structure PreInv (hv : K → Int) (m : HashMap K V) : Prop where
  capPos : 0 < m.capacity
  lenEq : m.buckets.length = m.capacity.toNat
  thr : m.rehashThreshold = 2
  placed : ∀ i, (hi : i < m.buckets.length) → ∀ p ∈ m.buckets[i], bucketIdx hv m p.1 = i
  nodupKeys : (tableKeys m).Nodup

/-- With rehash threshold 2, every committed state has chains of at most two
nodes (a third node is appended only transiently, immediately before the
rehash that rebuilds the whole table). -/
def ShortChains (m : HashMap K V) : Prop :=
  ∀ c ∈ m.buckets, c.length ≤ 2

/-- Statement of `set` correctness at a given fuel: on a well-formed state in
which either no enclosing `set` is running (`listLen = 0`) or the target
bucket is empty, a successful `set` preserves the invariants, resets the
counter, updates the abstract contents pointwise at exactly the given key,
and multiplies the capacity by a power of two. -/
def SetCorrect (K V : Type) [DecidableEq K] [Inhabited K] (hv : K → Int)
    (fuel : Nat) : Prop :=
  ∀ (m : HashMap K V) (key : K) (value : V) (m' : HashMap K V),
    PreInv hv m → ShortChains m →
    (m.listLen = 0 ∨ m.buckets.getD (bucketIdx hv m key) [] = []) →
    HashMap.set hv fuel m key value = some m' →
    PreInv hv m' ∧ ShortChains m' ∧ m'.listLen = 0 ∧
    (∀ k2, m'.get hv k2 = if k2 = key then some value else m.get hv k2) ∧
    ∃ n : Nat, m'.capacity = 2 ^ n * m.capacity

/-- Statement of `rehash` correctness at a given fuel: on a state satisfying
the structural invariant (chains may be longer than 2 — `rehash` is invoked
right after a third node was appended), a successful `rehash` restores all
invariants including short chains, preserves the abstract contents exactly,
and multiplies the capacity by a positive power of two. -/
def RehashCorrect (K V : Type) [DecidableEq K] [Inhabited K] (hv : K → Int)
    (fuel : Nat) : Prop :=
  ∀ (m m' : HashMap K V),
    PreInv hv m →
    HashMap.rehash hv fuel m = some m' →
    PreInv hv m' ∧ ShortChains m' ∧ (tableEntries m ≠ [] → m'.listLen = 0) ∧
    (∀ k2, m'.get hv k2 = m.get hv k2) ∧
    ∃ n : Nat, 1 ≤ n ∧ m'.capacity = 2 ^ n * m.capacity

/-- States reachable from `MakeHashMap` by successful `set` calls and by
`remove` calls (`get` does not change the state). -/
inductive Reachable (hv : K → Int) : HashMap K V → Prop where
  | init : Reachable hv MakeHashMap
  | stepSet {m m' : HashMap K V} {fuel : Nat} {key : K} {value : V} :
      Reachable hv m → HashMap.set hv fuel m key value = some m' → Reachable hv m'
  | stepRemove {m : HashMap K V} (key : K) :
      Reachable hv m → Reachable hv (m.remove hv key)

/-- The abstract operations of the public interface, used to state properties
of arbitrary operation sequences.  `getOp` does not change the state. -/
inductive Op (K V : Type) where
  | setOp (key : K) (value : V)
  | removeOp (key : K)
  | getOp (key : K)

/-- Run a sequence of operations left to right, starting from `m`; every
`set` uses the given fuel and the whole run fails if one `set` runs out of
fuel. -/
def runOps (hv : K → Int) (fuel : Nat) : HashMap K V → List (Op K V) → Option (HashMap K V)
  | m, [] => some m
  | m, Op.setOp key value :: rest =>
    match HashMap.set hv fuel m key value with
    | none => none
    | some m2 => runOps hv fuel m2 rest
  | m, Op.removeOp key :: rest => runOps hv fuel (m.remove hv key) rest
  | m, Op.getOp _ :: rest => runOps hv fuel m rest

/-- Run a list of insertions left to right (the sequence-of-`set` form used
by the rehash-preservation property). -/
def runSets (hv : K → Int) (fuel : Nat) : HashMap K V → List (K × V) → Option (HashMap K V)
  | m, [] => some m
  | m, (key, value) :: rest =>
    match HashMap.set hv fuel m key value with
    | none => none
    | some m2 => runSets hv fuel m2 rest

end PropDefs


section HashLemmas

variable {K : Type}

theorem hashIndex_nonneg (hv : K → Int) (capacity : Int) (key : K) :
    0 ≤ hashIndex hv capacity key := by
  simp only [hashIndex]
  split <;> omega

theorem tmod_neg_left (a b : Int) : Int.tmod (-a) b = -Int.tmod a b := by
  simp only [Int.tmod_def, Int.neg_tdiv, Int.mul_neg]
  ring

theorem neg_lt_tmod (a : Int) {b : Int} (hb : 0 < b) : -b < Int.tmod a b := by
  rcases le_or_lt 0 a with ha | ha
  · have h1 := Int.tmod_nonneg b ha
    omega
  · have h2 : Int.tmod (-a) b < b := Int.tmod_lt_of_pos _ hb
    rw [tmod_neg_left] at h2
    omega

theorem hashIndex_lt (hv : K → Int) {capacity : Int} (key : K) (hcap : 0 < capacity) :
    hashIndex hv capacity key < capacity := by
  have h1 := neg_lt_tmod (hv key) hcap
  have h2 := Int.tmod_lt_of_pos (hv key) hcap
  simp only [hashIndex]
  split <;> omega

end HashLemmas

section ListLemmas

variable {K V : Type}

theorem bucketIdx_lt_length (hv : K → Int) {m : HashMap K V} (key : K)
    (hcap : 0 < m.capacity) (hlen : m.buckets.length = m.capacity.toNat) :
    bucketIdx hv m key < m.buckets.length := by
  have h1 := hashIndex_nonneg hv m.capacity key
  have h2 := hashIndex_lt hv key hcap
  simp only [bucketIdx]
  omega

theorem getD_eq_getElem_of_lt {α : Type} (bs : List α) (i : Nat) (d : α)
    (hi : i < bs.length) : bs.getD i d = bs[i] := by
  rw [List.getD_eq_getElem?_getD, List.getElem?_eq_getElem hi]
  rfl

theorem getD_set_self {α : Type} (bs : List α) (i : Nat) (c d : α)
    (hi : i < bs.length) : (bs.set i c).getD i d = c := by
  have hi2 : i < (bs.set i c).length := by
    rw [List.length_set]; exact hi
  rw [getD_eq_getElem_of_lt _ _ _ hi2, List.getElem_set_self]

theorem getD_set_ne {α : Type} (bs : List α) {i j : Nat} (c d : α) (hne : i ≠ j) :
    (bs.set i c).getD j d = bs.getD j d := by
  rw [List.getD_eq_getElem?_getD, List.getD_eq_getElem?_getD, List.getElem?_set_ne hne]

theorem getD_replicate {α : Type} (n i : Nat) (d : α) :
    (List.replicate n d).getD i d = d := by
  rw [List.getD_eq_getElem?_getD, List.getElem?_replicate]
  split <;> rfl

theorem flatten_decomp {α : Type} (bs : List (List α)) (i : Nat) (hi : i < bs.length) :
    bs.flatten = (bs.take i).flatten ++ bs[i] ++ (bs.drop (i + 1)).flatten := by
  conv_lhs => rw [← List.take_append_drop i bs]
  rw [← List.getElem_cons_drop bs i hi, List.flatten_append, List.flatten_cons,
    List.append_assoc]

theorem flatten_set {α : Type} (bs : List (List α)) (i : Nat) (c : List α)
    (hi : i < bs.length) :
    (bs.set i c).flatten = (bs.take i).flatten ++ c ++ (bs.drop (i + 1)).flatten := by
  rw [List.set_eq_take_append_cons_drop, if_pos hi, List.flatten_append, List.flatten_cons,
    List.append_assoc]

theorem flatten_replicate_nil {α : Type} (n : Nat) :
    (List.replicate n ([] : List α)).flatten = [] := by
  induction n with
  | zero => rfl
  | succ n ih => simp [List.replicate_succ, List.flatten_cons, ih]

end ListLemmas

section BasicLemmas

variable {K V : Type} [DecidableEq K]

theorem chainLookup_append (key : K) (l1 l2 : List (K × V)) :
    chainLookup key (l1 ++ l2) =
      match chainLookup key l1 with
      | some v => some v
      | none => chainLookup key l2 := by
  induction l1 with
  | nil => simp [chainLookup]
  | cons p rest ih =>
    obtain ⟨k', v'⟩ := p
    by_cases hk : k' = key <;> simp [chainLookup, hk, ih]

theorem chainLookup_eq_none_iff (key : K) (l : List (K × V)) :
    chainLookup key l = none ↔ key ∉ l.map Prod.fst := by
  induction l with
  | nil => simp [chainLookup]
  | cons p rest ih =>
    obtain ⟨k', v'⟩ := p
    by_cases hk : k' = key
    · subst hk
      simp [chainLookup]
    · simp [chainLookup, hk, ih, Ne.symm hk]

theorem chainLookup_of_nodup (key : K) (v : V) (l : List (K × V))
    (hnd : (l.map Prod.fst).Nodup) (hmem : (key, v) ∈ l) :
    chainLookup key l = some v := by
  induction l with
  | nil => simp at hmem
  | cons p rest ih =>
    obtain ⟨k', v'⟩ := p
    simp only [List.map_cons, List.nodup_cons] at hnd
    rcases List.mem_cons.mp hmem with heq | hmem2
    · injection heq with h1 h2
      subst h1; subst h2
      simp [chainLookup]
    · have hk : k' ≠ key := by
        rintro rfl
        exact hnd.1 (List.mem_map.mpr ⟨(k', v), hmem2, rfl⟩)
      simp [chainLookup, hk, ih hnd.2 hmem2]

end BasicLemmas

section InvariantDefs

variable {K V : Type} [DecidableEq K]


omit [DecidableEq K] in
theorem preInv_bucketIdx_lt (hv : K → Int) {m : HashMap K V} (hpre : PreInv hv m) (key : K) :
    bucketIdx hv m key < m.buckets.length :=
  bucketIdx_lt_length hv key hpre.capPos hpre.lenEq

omit [DecidableEq K] in
theorem not_mem_keys_take (hv : K → Int) {m : HashMap K V} (hpre : PreInv hv m) (key : K) :
    key ∉ ((m.buckets.take (bucketIdx hv m key)).flatten.map Prod.fst) := by
  intro hmem
  obtain ⟨p, hp, hpk⟩ := List.mem_map.mp hmem
  obtain ⟨c, hc, hpc⟩ := List.mem_flatten.mp hp
  obtain ⟨j, hj, hcj⟩ := List.mem_iff_getElem.mp hc
  have hjlen : j < m.buckets.length := by
    have := hj
    simp [List.length_take] at this
    omega
  have hjlt : j < bucketIdx hv m key := by
    have := hj
    simp [List.length_take] at this
    omega
  have hcj2 : m.buckets[j] = c := by
    rw [← List.getElem_take m.buckets]
    exact hcj
  have := hpre.placed j hjlen p (hcj2 ▸ hpc)
  rw [hpk] at this
  omega

omit [DecidableEq K] in
theorem not_mem_keys_drop (hv : K → Int) {m : HashMap K V} (hpre : PreInv hv m) (key : K) :
    key ∉ ((m.buckets.drop (bucketIdx hv m key + 1)).flatten.map Prod.fst) := by
  intro hmem
  obtain ⟨p, hp, hpk⟩ := List.mem_map.mp hmem
  obtain ⟨c, hc, hpc⟩ := List.mem_flatten.mp hp
  obtain ⟨j, hj, hcj⟩ := List.mem_iff_getElem.mp hc
  have hjlen : bucketIdx hv m key + 1 + j < m.buckets.length := by
    have := hj
    simp [List.length_drop] at this
    omega
  have hcj2 : m.buckets[bucketIdx hv m key + 1 + j] = c := by
    rw [← List.getElem_drop m.buckets]
    exact hcj
  have := hpre.placed (bucketIdx hv m key + 1 + j) hjlen p (hcj2 ▸ hpc)
  rw [hpk] at this
  omega

theorem get_eq_chainLookup_flatten (hv : K → Int) {m : HashMap K V} (hpre : PreInv hv m)
    (key : K) : m.get hv key = chainLookup key (tableEntries m) := by
  have hi : bucketIdx hv m key < m.buckets.length := preInv_bucketIdx_lt hv hpre key
  have htake : chainLookup key ((m.buckets.take (bucketIdx hv m key)).flatten
      : List (K × V)) = none :=
    (chainLookup_eq_none_iff key _).mpr (not_mem_keys_take hv hpre key)
  have hdrop : chainLookup key ((m.buckets.drop (bucketIdx hv m key + 1)).flatten
      : List (K × V)) = none :=
    (chainLookup_eq_none_iff key _).mpr (not_mem_keys_drop hv hpre key)
  rw [tableEntries, flatten_decomp m.buckets (bucketIdx hv m key) hi, chainLookup_append,
    chainLookup_append, htake]
  simp only []
  rw [HashMap.get, getD_eq_getElem_of_lt _ _ _ hi]
  cases hl : chainLookup key (m.buckets[bucketIdx hv m key] : List (K × V)) with
  | none => simp [hdrop]
  | some v => simp

theorem mem_tableKeys_iff (hv : K → Int) {m : HashMap K V} (hpre : PreInv hv m) (key : K) :
    key ∈ tableKeys m ↔ m.get hv key ≠ none := by
  rw [get_eq_chainLookup_flatten hv hpre key, Ne, chainLookup_eq_none_iff, not_not]
  rfl

theorem entryCount_eq_of_get_iff (hv : K → Int) {m1 m2 : HashMap K V}
    (h1 : PreInv hv m1) (h2 : PreInv hv m2)
    (hiff : ∀ k, m1.get hv k ≠ none ↔ m2.get hv k ≠ none) :
    entryCount m1 = entryCount m2 := by
  have hmem : ∀ k, k ∈ tableKeys m1 ↔ k ∈ tableKeys m2 := by
    intro k
    rw [mem_tableKeys_iff hv h1, mem_tableKeys_iff hv h2]
    exact hiff k
  have hfin : (tableKeys m1).toFinset = (tableKeys m2).toFinset := by
    apply Finset.ext
    intro k
    rw [List.mem_toFinset, List.mem_toFinset]
    exact hmem k
  have e1 : entryCount m1 = (tableKeys m1).length := by
    rw [tableKeys, List.length_map]
    rfl
  have e2 : entryCount m2 = (tableKeys m2).length := by
    rw [tableKeys, List.length_map]
    rfl
  rw [e1, e2, ← List.toFinset_card_of_nodup h1.nodupKeys,
    ← List.toFinset_card_of_nodup h2.nodupKeys, hfin]

omit [DecidableEq K] in
theorem bucket_empty_of_table_empty {m : HashMap K V} (hte : tableEntries m = [])
    (i : Nat) : m.buckets.getD i [] = [] := by
  rcases Nat.lt_or_ge i m.buckets.length with hlt | hge
  · rw [getD_eq_getElem_of_lt _ _ _ hlt]
    exact List.flatten_eq_nil_iff.mp hte _ (List.getElem_mem hlt)
  · rw [List.getD_eq_getElem?_getD, List.getElem?_eq_none hge]
    rfl

end InvariantDefs

section StateLemmas

variable {K V : Type} [DecidableEq K]

omit [DecidableEq K] in
theorem preInv_resetListLen (hv : K → Int) {m : HashMap K V} (hpre : PreInv hv m) :
    PreInv hv m.resetListLen :=
  ⟨hpre.capPos, hpre.lenEq, hpre.thr, hpre.placed, hpre.nodupKeys⟩

omit [DecidableEq K] in
theorem shortChains_resetListLen {m : HashMap K V} (hs : ShortChains m) :
    ShortChains m.resetListLen := hs

theorem get_resetListLen (hv : K → Int) (m : HashMap K V) (k : K) :
    m.resetListLen.get hv k = m.get hv k := rfl

theorem get_set_bucket (hv : K → Int) {m : HashMap K V} {h : Nat}
    (hi : h < m.buckets.length) (c : List (K × V)) (L T : Nat) (k2 : K) :
    HashMap.get hv (⟨m.capacity, m.buckets.set h c, L, T⟩ : HashMap K V) k2 =
      if bucketIdx hv m k2 = h then chainLookup k2 c else m.get hv k2 := by
  show chainLookup k2 ((m.buckets.set h c).getD (bucketIdx hv m k2) []) = _
  by_cases heq : bucketIdx hv m k2 = h
  · rw [if_pos heq, heq, getD_set_self _ _ _ _ hi]
  · rw [if_neg heq, getD_set_ne _ _ _ (fun hh => heq hh.symm)]
    rfl

omit [DecidableEq K] in
theorem tableKeys_set_bucket {m : HashMap K V} {h : Nat} (hi : h < m.buckets.length)
    (c : List (K × V)) (L T : Nat) (cap : Int) :
    tableKeys (⟨cap, m.buckets.set h c, L, T⟩ : HashMap K V) =
      (m.buckets.take h).flatten.map Prod.fst ++ c.map Prod.fst ++
        (m.buckets.drop (h + 1)).flatten.map Prod.fst := by
  show ((m.buckets.set h c).flatten).map Prod.fst = _
  rw [flatten_set _ _ _ hi]
  simp [List.map_append]

omit [DecidableEq K] in
theorem tableKeys_decomp {m : HashMap K V} {h : Nat} (hi : h < m.buckets.length) :
    tableKeys m =
      (m.buckets.take h).flatten.map Prod.fst ++ m.buckets[h].map Prod.fst ++
        (m.buckets.drop (h + 1)).flatten.map Prod.fst := by
  show (m.buckets.flatten).map Prod.fst = _
  rw [flatten_decomp m.buckets h hi]
  simp [List.map_append]

omit [DecidableEq K] in
theorem preInv_set_bucket (hv : K → Int) {m : HashMap K V} {h : Nat}
    (hpre : PreInv hv m) (hi : h < m.buckets.length) (c : List (K × V)) (L T : Nat)
    (hT : T = m.rehashThreshold)
    (hplace : ∀ p ∈ c, bucketIdx hv m p.1 = h)
    (hnd : (tableKeys (⟨m.capacity, m.buckets.set h c, L, T⟩ : HashMap K V)).Nodup) :
    PreInv hv (⟨m.capacity, m.buckets.set h c, L, T⟩ : HashMap K V) := by
  refine ⟨hpre.capPos, ?_, by rw [hT, hpre.thr], ?_, hnd⟩
  · show (m.buckets.set h c).length = m.capacity.toNat
    rw [List.length_set]
    exact hpre.lenEq
  · intro i hi2 p hp
    have hi3 : i < m.buckets.length := by
      have := hi2
      rw [List.length_set] at this
      exact this
    show bucketIdx hv m p.1 = i
    by_cases heq : i = h
    · subst heq
      rw [List.getElem_set_self] at hp
      exact hplace p hp
    · rw [List.getElem_set_ne (fun hh => heq hh.symm)] at hp
      exact hpre.placed i hi3 p hp

omit [DecidableEq K] in
theorem nodup_set_same_keys (hv : K → Int) {m : HashMap K V} {h : Nat}
    (hpre : PreInv hv m) (hi : h < m.buckets.length) {c : List (K × V)}
    (hk : c.map Prod.fst = m.buckets[h].map Prod.fst) (L T : Nat) (cap : Int) :
    (tableKeys (⟨cap, m.buckets.set h c, L, T⟩ : HashMap K V)).Nodup := by
  rw [tableKeys_set_bucket hi c L T cap, hk, ← tableKeys_decomp hi]
  exact hpre.nodupKeys

omit [DecidableEq K] in
theorem nodup_set_append_key (hv : K → Int) {m : HashMap K V} {h : Nat}
    (hpre : PreInv hv m) (hi : h < m.buckets.length) {c : List (K × V)} {key : K}
    (hk : c.map Prod.fst = m.buckets[h].map Prod.fst ++ [key])
    (hnew : key ∉ tableKeys m) (L T : Nat) (cap : Int) :
    (tableKeys (⟨cap, m.buckets.set h c, L, T⟩ : HashMap K V)).Nodup := by
  rw [tableKeys_set_bucket hi c L T cap, hk]
  have e1 : (m.buckets.take h).flatten.map Prod.fst ++
      (m.buckets[h].map Prod.fst ++ [key]) ++
      (m.buckets.drop (h + 1)).flatten.map Prod.fst =
      ((m.buckets.take h).flatten.map Prod.fst ++ m.buckets[h].map Prod.fst) ++
      key :: (m.buckets.drop (h + 1)).flatten.map Prod.fst := by
    simp [List.append_assoc]
  rw [e1, List.nodup_middle, List.nodup_cons]
  constructor
  · rw [← tableKeys_decomp hi]
    exact hnew
  · rw [← tableKeys_decomp hi]
    exact hpre.nodupKeys

omit [DecidableEq K] in
theorem nodup_set_sublist_keys (hv : K → Int) {m : HashMap K V} {h : Nat}
    (hpre : PreInv hv m) (hi : h < m.buckets.length) {c : List (K × V)}
    (hk : (c.map Prod.fst).Sublist (m.buckets[h].map Prod.fst)) (L T : Nat) (cap : Int) :
    (tableKeys (⟨cap, m.buckets.set h c, L, T⟩ : HashMap K V)).Nodup := by
  rw [tableKeys_set_bucket hi c L T cap]
  have hsub : ((m.buckets.take h).flatten.map Prod.fst ++ c.map Prod.fst ++
      (m.buckets.drop (h + 1)).flatten.map Prod.fst).Sublist (tableKeys m) := by
    rw [tableKeys_decomp hi]
    exact ((List.Sublist.refl _).append hk).append (List.Sublist.refl _)
  exact hsub.nodup hpre.nodupKeys

omit [DecidableEq K] in
theorem shortChains_set_bucket {m : HashMap K V} {h : Nat} (hs : ShortChains m)
    {c : List (K × V)} (hc : c.length ≤ 2) (L T : Nat) (cap : Int) :
    ShortChains (⟨cap, m.buckets.set h c, L, T⟩ : HashMap K V) := by
  intro c2 hc2
  rcases List.mem_or_eq_of_mem_set hc2 with hmem | heq
  · exact hs c2 hmem
  · rw [heq]
    exact hc

theorem contents_update_of_chain (hv : K → Int) {m : HashMap K V} {h : Nat}
    (hi : h < m.buckets.length) (c : List (K × V)) (L T : Nat) {key : K} {value : V}
    (hkeyidx : bucketIdx hv m key = h)
    (hckey : chainLookup key c = some value)
    (hother : ∀ k2, k2 ≠ key → chainLookup k2 c = chainLookup k2 (m.buckets.getD h [])) :
    ∀ k2, HashMap.get hv (⟨m.capacity, m.buckets.set h c, L, T⟩ : HashMap K V) k2 =
      if k2 = key then some value else m.get hv k2 := by
  intro k2
  rw [get_set_bucket hv hi c L T k2]
  by_cases hk : k2 = key
  · subst hk
    rw [if_pos hkeyidx, hckey, if_pos rfl]
  · rw [if_neg hk]
    by_cases hbh : bucketIdx hv m k2 = h
    · rw [if_pos hbh, hother k2 hk]
      show chainLookup k2 (m.buckets.getD h []) = chainLookup k2 (m.buckets.getD (bucketIdx hv m k2) [])
      rw [hbh]
    · rw [if_neg hbh]

theorem not_mem_tableKeys_of_not_in_bucket (hv : K → Int) {m : HashMap K V}
    (hpre : PreInv hv m) (key : K)
    (hkb : key ∉ (m.buckets.getD (bucketIdx hv m key) []).map Prod.fst) :
    key ∉ tableKeys m := by
  intro hmem
  have hne := (mem_tableKeys_iff hv hpre key).mp hmem
  exact hne ((chainLookup_eq_none_iff key _).mpr hkb)

end StateLemmas

section LoopLemmas

variable {K V : Type} [DecidableEq K] [Inhabited K]

omit [Inhabited K] in
omit [DecidableEq K] in
theorem noCollidingHashes_false (hv : K → Int) (capacity : Int) (keyspace : List K) :
    noCollidingHashes hv capacity keyspace = false := by
  simp [noCollidingHashes]

omit [Inhabited K] in
omit [DecidableEq K] in
theorem rehashCapacityLoop_succ (hv : K → Int) (keyspace : List K) (fuel : Nat)
    (capacity : Int) :
    rehashCapacityLoop hv keyspace (fuel + 1) capacity = some (capacity * 2) := by
  simp [rehashCapacityLoop, noCollidingHashes_false]

theorem set_zero_eq (hv : K → Int) (m : HashMap K V) (key : K) (value : V) :
    HashMap.set hv 0 m key value = none := rfl

theorem rehash_zero_eq (hv : K → Int) (m : HashMap K V) :
    HashMap.rehash hv 0 m = none := rfl

theorem set_succ_eq (hv : K → Int) (fuel : Nat) (m : HashMap K V) (key : K) (value : V) :
    HashMap.set hv (fuel + 1) m key value =
      setBody hv (fun s => HashMap.rehash hv fuel s) m key value := rfl

theorem rehash_succ_eq (hv : K → Int) (fuel : Nat) (m : HashMap K V) :
    HashMap.rehash hv (fuel + 1) m =
      rehashBody hv (fun s k v => HashMap.set hv fuel s k v) fuel m := rfl


end LoopLemmas

section MainInduction

variable {K V : Type} [DecidableEq K] [Inhabited K]

theorem reinsertAll_correct (hv : K → Int) (fuel : Nat) (hsc : SetCorrect K V hv fuel) :
    ∀ (elems : List (K × V)) (m m' : HashMap K V),
      PreInv hv m → ShortChains m →
      (m.listLen = 0 ∨ tableEntries m = []) →
      (elems.map Prod.fst).Nodup →
      (∀ p ∈ elems, p.1 ∉ tableKeys m) →
      reinsertAll (fun s k v => HashMap.set hv fuel s k v) m elems = some m' →
      PreInv hv m' ∧ ShortChains m' ∧
      (elems ≠ [] → m'.listLen = 0) ∧ (elems = [] → m' = m) ∧
      (∀ k2, m'.get hv k2 =
        match chainLookup k2 elems with
        | some v => some v
        | none => m.get hv k2) ∧
      ∃ n : Nat, m'.capacity = 2 ^ n * m.capacity := by
  intro elems
  induction elems with
  | nil =>
    intro m m' hpre hs hll hnd hdisj hrun
    simp only [reinsertAll, Option.some.injEq] at hrun
    subst hrun
    refine ⟨hpre, hs, by simp, fun _ => rfl, ?_, ⟨0, by ring⟩⟩
    intro k2
    simp [chainLookup]
  | cons p rest ih =>
    intro m m' hpre hs hll hnd hdisj hrun
    obtain ⟨k1, v1⟩ := p
    simp only [reinsertAll] at hrun
    cases hset : HashMap.set hv fuel m k1 v1 with
    | none =>
      rw [hset] at hrun
      simp at hrun
    | some m1 =>
      rw [hset] at hrun
      simp only [] at hrun
      have hbucket : m.listLen = 0 ∨ m.buckets.getD (bucketIdx hv m k1) [] = [] := by
        rcases hll with h0 | hte
        · exact Or.inl h0
        · exact Or.inr (bucket_empty_of_table_empty hte _)
      obtain ⟨hpre1, hs1, hll1, hget1, ⟨a, hcap1⟩⟩ :=
        hsc m k1 v1 m1 hpre hs hbucket hset
      simp only [List.map_cons, List.nodup_cons] at hnd
      obtain ⟨hk1notin, hndrest⟩ := hnd
      have hdisj1 : ∀ q ∈ rest, q.1 ∉ tableKeys m1 := by
        intro q hq hqmem
        have hqne : q.1 ≠ k1 := by
          intro hqeq
          exact hk1notin (hqeq ▸ List.mem_map.mpr ⟨q, hq, rfl⟩)
        have hne := (mem_tableKeys_iff hv hpre1 q.1).mp hqmem
        rw [hget1 q.1, if_neg hqne] at hne
        have : q.1 ∈ tableKeys m := (mem_tableKeys_iff hv hpre q.1).mpr hne
        exact hdisj q (List.mem_cons_of_mem _ hq) this
      obtain ⟨hpre2, hs2, hll2, hnil2, hget2, ⟨b, hcap2⟩⟩ :=
        ih m1 m' hpre1 hs1 (Or.inl hll1) hndrest hdisj1 hrun
      refine ⟨hpre2, hs2, ?_, by simp, ?_, ?_⟩
      · intro _
        rcases List.eq_nil_or_concat rest with hre | _
        · subst hre
          rw [hnil2 rfl]
          exact hll1
        · rcases rest with _ | ⟨q, rest2⟩
          · rw [hnil2 rfl]
            exact hll1
          · exact hll2 (by simp)
      · intro k2
        rw [hget2 k2]
        by_cases hk : k1 = k2
        · subst hk
          have hcl : chainLookup k1 rest = none :=
            (chainLookup_eq_none_iff k1 rest).mpr hk1notin
          simp [chainLookup, hcl, hget1]
        · simp only [chainLookup, if_neg hk]
          cases hcl : chainLookup k2 rest with
          | some v => rfl
          | none =>
            simp only []
            rw [hget1 k2, if_neg (fun hh => hk hh.symm)]
      · exact ⟨b + a, by rw [hcap2, hcap1, pow_add]; ring⟩

theorem rehash_step (hv : K → Int) (fuel : Nat) (hsc : SetCorrect K V hv fuel) :
    RehashCorrect K V hv (fuel + 1) := by
  intro m m' hpre hrun
  rw [rehash_succ_eq] at hrun
  simp only [rehashBody] at hrun
  rw [rehashCapacityLoop_succ] at hrun
  simp only [] at hrun
  have hpre1 : PreInv hv (⟨m.capacity * 2,
      List.replicate (m.capacity * 2).toNat [], m.listLen, m.rehashThreshold⟩ :
      HashMap K V) := by
    refine ⟨?_, ?_, hpre.thr, ?_, ?_⟩
    · show (0 : Int) < m.capacity * 2
      have := hpre.capPos
      omega
    · simp
    · intro i hi p hp
      rw [List.getElem_replicate] at hp
      simp at hp
    · show ((List.replicate (m.capacity * 2).toNat
        ([] : List (K × V))).flatten.map Prod.fst).Nodup
      rw [flatten_replicate_nil]
      simp
  have hs1 : ShortChains (⟨m.capacity * 2,
      List.replicate (m.capacity * 2).toNat [], m.listLen, m.rehashThreshold⟩ :
      HashMap K V) := by
    intro c hc
    rw [List.eq_of_mem_replicate hc]
    simp
  have hte1 : tableEntries (⟨m.capacity * 2,
      List.replicate (m.capacity * 2).toNat [], m.listLen, m.rehashThreshold⟩ :
      HashMap K V) = [] := flatten_replicate_nil _
  have hdisj : ∀ p ∈ tableEntries m, p.1 ∉ tableKeys (⟨m.capacity * 2,
      List.replicate (m.capacity * 2).toNat [], m.listLen, m.rehashThreshold⟩ :
      HashMap K V) := by
    intro p _ hmem
    rw [tableKeys, hte1] at hmem
    simp at hmem
  obtain ⟨hpre2, hs2, hll2, _, hget2, ⟨b, hcap2⟩⟩ :=
    reinsertAll_correct hv fuel hsc (tableEntries m) _ m' hpre1 hs1 (Or.inr hte1)
      hpre.nodupKeys hdisj hrun
  have hcontents : ∀ k2, m'.get hv k2 = m.get hv k2 := by
    intro k2
    rw [hget2 k2]
    have hempty : HashMap.get hv (⟨m.capacity * 2,
        List.replicate (m.capacity * 2).toNat [], m.listLen, m.rehashThreshold⟩ :
        HashMap K V) k2 = none := by
      show chainLookup k2 ((List.replicate (m.capacity * 2).toNat []).getD _ []) = none
      rw [getD_replicate]
      rfl
    rw [hempty, get_eq_chainLookup_flatten hv hpre k2]
    cases chainLookup k2 (tableEntries m) <;> rfl
  have hcapeq : m'.capacity = 2 ^ (b + 1) * m.capacity := by
    rw [hcap2]
    show (2 : Int) ^ b * (m.capacity * 2) = 2 ^ (b + 1) * m.capacity
    rw [pow_succ]
    ring
  exact ⟨hpre2, hs2, fun hne => hll2 hne, hcontents, ⟨b + 1, by omega, hcapeq⟩⟩

theorem set_step (hv : K → Int) (fuel : Nat) (hrc : RehashCorrect K V hv fuel) :
    SetCorrect K V hv (fuel + 1) := by
  intro m key value m' hpre hs hll hrun
  rw [set_succ_eq] at hrun
  simp only [setBody] at hrun
  have hi : bucketIdx hv m key < m.buckets.length := preInv_bucketIdx_lt hv hpre key
  rcases hbc : m.buckets.getD (bucketIdx hv m key) [] with _ | ⟨⟨k1, w1⟩, rest0⟩
  · -- the bucket is empty: install a one-node chain
    rw [hbc] at hrun
    simp only [] at hrun
    have hmE : m' = (⟨m.capacity, m.buckets.set (bucketIdx hv m key) [(key, value)], 0,
        m.rehashThreshold⟩ : HashMap K V) := (Option.some.inj hrun).symm
    subst hmE
    have hbh : m.buckets[bucketIdx hv m key] = [] :=
      (getD_eq_getElem_of_lt m.buckets _ [] hi).symm.trans hbc
    have hknotin : key ∉ tableKeys m := by
      apply not_mem_tableKeys_of_not_in_bucket hv hpre key
      rw [hbc]
      simp
    refine ⟨?_, ?_, rfl, ?_, ⟨0, by show m.capacity = 2 ^ 0 * m.capacity; ring⟩⟩
    · refine preInv_set_bucket hv hpre hi _ 0 m.rehashThreshold rfl ?_ ?_
      · intro p hp
        simp only [List.mem_singleton] at hp
        subst hp
        rfl
      · exact nodup_set_append_key hv hpre hi (by simp [hbh]) hknotin 0
          m.rehashThreshold m.capacity
    · exact shortChains_set_bucket hs (by simp) 0 m.rehashThreshold m.capacity
    · apply contents_update_of_chain hv hi _ 0 m.rehashThreshold rfl
        (by simp [chainLookup])
      intro k2 hk
      rw [hbc]
      simp [chainLookup, Ne.symm hk]
  · -- the bucket already has a chain
    rw [hbc] at hrun
    simp only [] at hrun
    have hll0 : m.listLen = 0 := by
      rcases hll with h0 | hemp
      · exact h0
      · rw [hbc] at hemp
        simp at hemp
    have hbh : m.buckets[bucketIdx hv m key] = (k1, w1) :: rest0 :=
      (getD_eq_getElem_of_lt m.buckets _ [] hi).symm.trans hbc
    have hlen : ((k1, w1) :: rest0).length ≤ 2 := by
      rw [← hbh]
      exact hs _ (List.getElem_mem hi)
    have hk1mem : (k1, w1) ∈ m.buckets[bucketIdx hv m key] := by
      rw [hbh]
      exact List.mem_cons_self _ _
    have hk1idx : bucketIdx hv m k1 = bucketIdx hv m key := hpre.placed _ hi _ hk1mem
    have hthr := hpre.thr
    rcases rest0 with _ | ⟨⟨k2, w2⟩, rest1⟩
    · -- chain of one node
      simp only [setChainLive, List.nil_append] at hrun
      split at hrun
      · -- in-place update of the single node
        next hk1 =>
        subst k1
        have hmE : m' = (⟨m.capacity,
            m.buckets.set (bucketIdx hv m key) [(key, value)], 0,
            m.rehashThreshold⟩ : HashMap K V) := (Option.some.inj hrun).symm
        subst hmE
        refine ⟨?_, ?_, rfl, ?_, ⟨0, by show m.capacity = 2 ^ 0 * m.capacity; ring⟩⟩
        · refine preInv_set_bucket hv hpre hi _ 0 m.rehashThreshold rfl ?_ ?_
          · intro p hp
            simp only [List.mem_singleton] at hp
            subst hp
            rfl
          · exact nodup_set_same_keys hv hpre hi (by simp [hbh]) _ _ _
        · exact shortChains_set_bucket hs (by simp) _ _ _
        · apply contents_update_of_chain hv hi _ 0 m.rehashThreshold rfl
            (by simp [chainLookup])
          intro k2 hk
          rw [hbc]
          simp [chainLookup, Ne.symm hk]
      · next hk1 =>
        split at hrun
        · next hemp =>
          split at hrun
          · -- threshold reached after an append to a one-node chain: impossible
            next hthr2 =>
            exfalso
            omega
          · -- append a second node, no rehash
            next hthr2 =>
            have hmE : m' = (⟨m.capacity,
                m.buckets.set (bucketIdx hv m key) [(k1, w1), (key, value)], 0,
                m.rehashThreshold⟩ : HashMap K V) := (Option.some.inj hrun).symm
            subst hmE
            have hknotin : key ∉ tableKeys m := by
              apply not_mem_tableKeys_of_not_in_bucket hv hpre key
              rw [hbc]
              simp only [List.map_cons, List.map_nil, List.mem_singleton]
              exact fun h => hk1 h.symm
            refine ⟨?_, ?_, rfl, ?_, ⟨0, by show m.capacity = 2 ^ 0 * m.capacity; ring⟩⟩
            · refine preInv_set_bucket hv hpre hi _ 0 m.rehashThreshold rfl ?_ ?_
              · intro p hp
                rcases List.mem_cons.mp hp with h1 | h2
                · subst h1
                  exact hk1idx
                · simp only [List.mem_singleton] at h2
                  subst h2
                  rfl
              · exact nodup_set_append_key hv hpre hi (by simp [hbh]) hknotin _ _ _
            · exact shortChains_set_bucket hs (by simp) _ _ _
            · apply contents_update_of_chain hv hi _ 0 m.rehashThreshold rfl
                (by simp [chainLookup, hk1])
              intro k2 hk
              rw [hbc]
              by_cases hk12 : k1 = k2 <;> simp [chainLookup, hk12, Ne.symm hk]
        · next hemp =>
          exact absurd List.isEmpty_nil hemp
    · -- chain of two nodes
      have hrest1 : rest1 = [] := by
        simp only [List.length_cons] at hlen
        have h0 : rest1.length = 0 := by omega
        exact List.eq_nil_of_length_eq_zero h0
      subst hrest1
      have hk2mem : (k2, w2) ∈ m.buckets[bucketIdx hv m key] := by
        rw [hbh]
        exact List.mem_cons_of_mem _ (List.mem_cons_self _ _)
      have hk2idx : bucketIdx hv m k2 = bucketIdx hv m key := hpre.placed _ hi _ hk2mem
      simp only [setChainLive, List.nil_append, List.cons_append] at hrun
      split at hrun
      · -- in-place update of the head node
        next hk1 =>
        subst k1
        have hmE : m' = (⟨m.capacity,
            m.buckets.set (bucketIdx hv m key) [(key, value), (k2, w2)], 0,
            m.rehashThreshold⟩ : HashMap K V) := (Option.some.inj hrun).symm
        subst hmE
        refine ⟨?_, ?_, rfl, ?_, ⟨0, by show m.capacity = 2 ^ 0 * m.capacity; ring⟩⟩
        · refine preInv_set_bucket hv hpre hi _ 0 m.rehashThreshold rfl ?_ ?_
          · intro p hp
            rcases List.mem_cons.mp hp with h1 | h2
            · subst h1
              rfl
            · simp only [List.mem_singleton] at h2
              subst h2
              exact hk2idx
          · exact nodup_set_same_keys hv hpre hi (by simp [hbh]) _ _ _
        · exact shortChains_set_bucket hs (by simp) _ _ _
        · apply contents_update_of_chain hv hi _ 0 m.rehashThreshold rfl
            (by simp [chainLookup])
          intro k3 hk
          rw [hbc]
          simp [chainLookup, Ne.symm hk]
      · next hk1 =>
        split at hrun
        · next hemp =>
          exact absurd hemp (by simp)
        · next hemp =>
          split at hrun
          · -- mid-chain threshold after the first node: impossible at listLen 0
            next hthr2 =>
            exfalso
            omega
          · next hthr2 =>
            split at hrun
            · -- in-place update of the second node
              next hk2eq =>
              subst k2
              have hmE : m' = (⟨m.capacity,
                  m.buckets.set (bucketIdx hv m key) [(k1, w1), (key, value)], 0,
                  m.rehashThreshold⟩ : HashMap K V) := (Option.some.inj hrun).symm
              subst hmE
              refine ⟨?_, ?_, rfl, ?_, ⟨0, by show m.capacity = 2 ^ 0 * m.capacity; ring⟩⟩
              · refine preInv_set_bucket hv hpre hi _ 0 m.rehashThreshold rfl ?_ ?_
                · intro p hp
                  rcases List.mem_cons.mp hp with h1 | h2
                  · subst h1
                    exact hk1idx
                  · simp only [List.mem_singleton] at h2
                    subst h2
                    rfl
                · exact nodup_set_same_keys hv hpre hi (by simp [hbh]) _ _ _
              · exact shortChains_set_bucket hs (by simp) _ _ _
              · apply contents_update_of_chain hv hi _ 0 m.rehashThreshold rfl
                  (by simp [chainLookup, hk1])
                intro k3 hk
                rw [hbc]
                by_cases hk13 : k1 = k3 <;> simp [chainLookup, hk13, Ne.symm hk]
            · next hk2eq =>
              split at hrun
              · next hemp2 =>
                split at hrun
                · -- fresh key: append a third node and rehash
                  next hthr3 =>
                  have hknotin : key ∉ tableKeys m := by
                    apply not_mem_tableKeys_of_not_in_bucket hv hpre key
                    rw [hbc]
                    simp only [List.map_cons, List.map_nil, List.mem_cons,
                      List.mem_singleton, List.not_mem_nil]
                    push_neg
                    refine ⟨fun h => hk1 h.symm, fun h => hk2eq h.symm, fun h => h⟩
                  have hpre2 : PreInv hv (⟨m.capacity,
                      m.buckets.set (bucketIdx hv m key)
                        [(k1, w1), (k2, w2), (key, value)],
                      m.listLen + 1 + 1, m.rehashThreshold⟩ : HashMap K V) := by
                    refine preInv_set_bucket hv hpre hi _ _ m.rehashThreshold rfl ?_ ?_
                    · intro p hp
                      rcases List.mem_cons.mp hp with h1 | hp2
                      · subst h1
                        exact hk1idx
                      rcases List.mem_cons.mp hp2 with h2 | hp3
                      · subst h2
                        exact hk2idx
                      · simp only [List.mem_singleton] at hp3
                        subst hp3
                        rfl
                    · exact nodup_set_append_key hv hpre hi (by simp [hbh]) hknotin _ _ _
                  split at hrun
                  · next heq =>
                    exact absurd hrun (by simp)
                  · next m3 heq =>
                    have hmE : m' = m3.resetListLen := (Option.some.inj hrun).symm
                    subst hmE
                    obtain ⟨hpre3, hs3, _, hget3, ⟨n, hn1, hcap3⟩⟩ := hrc _ m3 hpre2 heq
                    refine ⟨preInv_resetListLen hv hpre3, shortChains_resetListLen hs3,
                      rfl, ?_, ?_⟩
                    · intro k3
                      rw [get_resetListLen, hget3 k3]
                      refine contents_update_of_chain hv hi
                        [(k1, w1), (k2, w2), (key, value)] (m.listLen + 1 + 1)
                        m.rehashThreshold rfl (by simp [chainLookup, hk1, hk2eq]) ?_ k3
                      intro k4 hk
                      rw [hbc]
                      by_cases hk14 : k1 = k4
                      · simp [chainLookup, hk14]
                      · by_cases hk24 : k2 = k4 <;>
                          simp [chainLookup, hk14, hk24, Ne.symm hk]
                    · refine ⟨n, ?_⟩
                      show m3.capacity = 2 ^ n * m.capacity
                      exact hcap3
                · -- threshold not reached after appending the third node: impossible
                  next hthr3 =>
                  exfalso
                  omega
              · next hemp2 =>
                exact absurd List.isEmpty_nil hemp2
theorem setRehashCorrect (hv : K → Int) (fuel : Nat) :
    SetCorrect K V hv fuel ∧ RehashCorrect K V hv fuel := by
  induction fuel with
  | zero =>
    constructor
    · intro m key value m' _ _ _ hrun
      rw [set_zero_eq] at hrun
      cases hrun
    · intro m m' _ hrun
      rw [rehash_zero_eq] at hrun
      cases hrun
  | succ fuel ih =>
    exact ⟨set_step hv fuel ih.2, rehash_step hv fuel ih.1⟩

theorem set_correct (hv : K → Int) {fuel : Nat} {m : HashMap K V} {key : K} {value : V}
    {m' : HashMap K V} (hpre : PreInv hv m) (hs : ShortChains m) (hll : m.listLen = 0)
    (hrun : HashMap.set hv fuel m key value = some m') :
    PreInv hv m' ∧ ShortChains m' ∧ m'.listLen = 0 ∧
    (∀ k2, m'.get hv k2 = if k2 = key then some value else m.get hv k2) ∧
    ∃ n : Nat, m'.capacity = 2 ^ n * m.capacity :=
  (setRehashCorrect hv fuel).1 m key value m' hpre hs (Or.inl hll) hrun

end MainInduction

section RemoveProof

variable {K V : Type} [DecidableEq K]

theorem removeChainAux_sublist_self (key : K) (l : List (K × V)) :
    (removeChainAux key l).Sublist l := by
  induction l with
  | nil => simp [removeChainAux]
  | cons p rest ih =>
    obtain ⟨k', v'⟩ := p
    by_cases hk : k' = key
    · simp only [removeChainAux, if_pos hk]
      exact List.sublist_cons_self _ _
    · simp only [removeChainAux, if_neg hk]
      exact ih.cons₂ _

theorem chainLookup_removeChainAux_ne (key k2 : K) (hk : k2 ≠ key) (l : List (K × V)) :
    chainLookup k2 (removeChainAux key l) = chainLookup k2 l := by
  induction l with
  | nil => rfl
  | cons p rest ih =>
    obtain ⟨k', v'⟩ := p
    by_cases hkk : k' = key
    · have hk2 : ¬ (k' = k2) := fun hh => hk (hh ▸ hkk)
      simp only [removeChainAux, if_pos hkk, chainLookup, if_neg hk2]
    · by_cases hk2 : k' = k2 <;> simp [removeChainAux, hkk, chainLookup, hk2, ih, hk]

theorem chainLookup_removeChainAux_self (key : K) (l : List (K × V))
    (hnd : (l.map Prod.fst).Nodup) :
    chainLookup key (removeChainAux key l) = none := by
  induction l with
  | nil => rfl
  | cons p rest ih =>
    obtain ⟨k', v'⟩ := p
    simp only [List.map_cons, List.nodup_cons] at hnd
    by_cases hk : k' = key
    · subst hk
      simp only [removeChainAux, if_pos rfl]
      rw [chainLookup_eq_none_iff]
      exact hnd.1
    · simp only [removeChainAux, if_neg hk]
      simp [chainLookup, hk, ih hnd.2]

theorem removeChainAux_of_not_mem (key : K) (l : List (K × V))
    (h : key ∉ l.map Prod.fst) : removeChainAux key l = l := by
  induction l with
  | nil => rfl
  | cons p rest ih =>
    obtain ⟨k', v'⟩ := p
    simp only [List.map_cons, List.mem_cons] at h
    push_neg at h
    simp only [removeChainAux]
    rw [if_neg (fun hh => h.1 hh.symm), ih h.2]

omit [DecidableEq K] in
theorem bucket_keys_nodup (hv : K → Int) {m : HashMap K V} (hpre : PreInv hv m)
    {i : Nat} (hi : i < m.buckets.length) : (m.buckets[i].map Prod.fst).Nodup := by
  have hnd := hpre.nodupKeys
  rw [tableKeys_decomp hi] at hnd
  have hsub : (m.buckets[i].map Prod.fst).Sublist
      ((m.buckets.take i).flatten.map Prod.fst ++ m.buckets[i].map Prod.fst ++
        (m.buckets.drop (i + 1)).flatten.map Prod.fst) :=
    ((List.sublist_append_right _ _).trans (List.sublist_append_left _ _))
  exact hsub.nodup hnd

theorem remove_correct (hv : K → Int) {m : HashMap K V} (hpre : PreInv hv m)
    (hs : ShortChains m) (key : K) :
    PreInv hv (m.remove hv key) ∧ ShortChains (m.remove hv key) ∧
    (m.remove hv key).listLen = m.listLen ∧
    (m.remove hv key).capacity = m.capacity ∧
    (∀ k2, (m.remove hv key).get hv k2 = if k2 = key then none else m.get hv k2) := by
  have hi : bucketIdx hv m key < m.buckets.length := preInv_bucketIdx_lt hv hpre key
  have hbnd : (m.buckets[bucketIdx hv m key].map Prod.fst).Nodup :=
    bucket_keys_nodup hv hpre hi
  rcases hbc : m.buckets.getD (bucketIdx hv m key) [] with _ | ⟨⟨k0, w0⟩, rest⟩
  · -- empty bucket: no-op
    have hrm : m.remove hv key = m := by
      simp only [HashMap.remove, hbc]
    rw [hrm]
    refine ⟨hpre, hs, rfl, rfl, ?_⟩
    intro k2
    by_cases hk : k2 = key
    · subst hk
      rw [if_pos rfl, HashMap.get, hbc]
      rfl
    · rw [if_neg hk]
  · have hbh : m.buckets[bucketIdx hv m key] = (k0, w0) :: rest :=
      (getD_eq_getElem_of_lt m.buckets _ [] hi).symm.trans hbc
    rw [hbh] at hbnd
    simp only [List.map_cons, List.nodup_cons] at hbnd
    by_cases hk0 : k0 = key
    · -- head match: the bucket head becomes the successor
      have hrm : m.remove hv key =
          (⟨m.capacity, m.buckets.set (bucketIdx hv m key) rest, m.listLen,
            m.rehashThreshold⟩ : HashMap K V) := by
        simp only [HashMap.remove, hbc, if_pos hk0]
      rw [hrm]
      refine ⟨?_, ?_, rfl, rfl, ?_⟩
      · refine preInv_set_bucket hv hpre hi _ _ m.rehashThreshold rfl ?_ ?_
        · intro p hp
          exact hpre.placed _ hi p (hbh ▸ List.mem_cons_of_mem _ hp)
        · refine nodup_set_sublist_keys hv hpre hi ?_ _ _ _
          rw [hbh]
          simp only [List.map_cons]
          exact List.sublist_cons_self _ _
      · refine shortChains_set_bucket hs ?_ _ _ _
        have := hs _ (hbh ▸ List.getElem_mem hi)
        simp only [List.length_cons] at this
        omega
      · intro k2
        rw [get_set_bucket hv hi rest _ _ k2]
        by_cases hk : k2 = key
        · subst hk
          rw [if_pos rfl, if_pos rfl]
          rw [chainLookup_eq_none_iff]
          subst hk0
          exact hbnd.1
        · rw [if_neg hk]
          by_cases hbi : bucketIdx hv m k2 = bucketIdx hv m key
          · rw [if_pos hbi, HashMap.get, hbi, hbc, chainLookup]
            rw [if_neg (fun hh : k0 = k2 => hk (hh ▸ hk0))]
          · rw [if_neg hbi]
    · -- no head match: splice the first match out of the tail
      have hrm : m.remove hv key =
          (⟨m.capacity,
            m.buckets.set (bucketIdx hv m key) ((k0, w0) :: removeChainAux key rest),
            m.listLen, m.rehashThreshold⟩ : HashMap K V) := by
        simp only [HashMap.remove, hbc, if_neg hk0]
      rw [hrm]
      refine ⟨?_, ?_, rfl, rfl, ?_⟩
      · refine preInv_set_bucket hv hpre hi _ _ m.rehashThreshold rfl ?_ ?_
        · intro p hp
          rcases List.mem_cons.mp hp with h1 | h2
          · subst h1
            exact hpre.placed _ hi _ (hbh ▸ List.mem_cons_self _ _)
          · exact hpre.placed _ hi p
              (hbh ▸ List.mem_cons_of_mem _ ((removeChainAux_sublist_self key rest).subset h2))
        · refine nodup_set_sublist_keys hv hpre hi ?_ _ _ _
          rw [hbh]
          simp only [List.map_cons]
          exact ((removeChainAux_sublist_self key rest).map Prod.fst).cons₂ _
      · refine shortChains_set_bucket hs ?_ _ _ _
        have h1 := hs _ (hbh ▸ List.getElem_mem hi)
        simp only [List.length_cons] at h1 ⊢
        have h2 := (removeChainAux_sublist_self key rest).length_le
        omega
      · intro k2
        rw [get_set_bucket hv hi _ _ _ k2]
        by_cases hk : k2 = key
        · subst hk
          rw [if_pos rfl, if_pos rfl, chainLookup, if_neg hk0,
            chainLookup_removeChainAux_self _ _ hbnd.2]
        · rw [if_neg hk]
          by_cases hbi : bucketIdx hv m k2 = bucketIdx hv m key
          · rw [if_pos hbi, HashMap.get, hbi, hbc, chainLookup, chainLookup]
            by_cases hk02 : k0 = k2
            · rw [if_pos hk02, if_pos hk02]
            · rw [if_neg hk02, if_neg hk02, chainLookup_removeChainAux_ne _ _ hk]
          · rw [if_neg hbi]

theorem remove_noop_of_absent (hv : K → Int) {m : HashMap K V} (hpre : PreInv hv m)
    (key : K) (habs : m.get hv key = none) : m.remove hv key = m := by
  have hi : bucketIdx hv m key < m.buckets.length := preInv_bucketIdx_lt hv hpre key
  rcases hbc : m.buckets.getD (bucketIdx hv m key) [] with _ | ⟨⟨k0, w0⟩, rest⟩
  · simp only [HashMap.remove, hbc]
  · have hbh : m.buckets[bucketIdx hv m key] = (k0, w0) :: rest :=
      (getD_eq_getElem_of_lt m.buckets _ [] hi).symm.trans hbc
    rw [HashMap.get, hbc] at habs
    rw [chainLookup_eq_none_iff] at habs
    simp only [List.map_cons, List.mem_cons] at habs
    push_neg at habs
    have hk0 : ¬ k0 = key := fun hh => habs.1 hh.symm
    have haux : removeChainAux key rest = rest :=
      removeChainAux_of_not_mem key rest habs.2
    simp only [HashMap.remove, hbc, if_neg hk0, haux]
    have hself : m.buckets.set (bucketIdx hv m key) ((k0, w0) :: rest) = m.buckets := by
      conv_lhs => rw [← hbh]
      apply List.ext_getElem
      · simp
      · intro i h1 h2
        by_cases heq : bucketIdx hv m key = i
        · subst heq
          rw [List.getElem_set_self]
        · rw [List.getElem_set_ne heq]
    rw [hself]

end RemoveProof

section Reachability

variable {K V : Type} [DecidableEq K] [Inhabited K]

omit [DecidableEq K] [Inhabited K] in
theorem preInv_makeHashMap (hv : K → Int) : PreInv hv (MakeHashMap : HashMap K V) := by
  refine ⟨by norm_num [MakeHashMap], by rfl, rfl, ?_, ?_⟩
  · intro i hi p hp
    have hnil : (MakeHashMap : HashMap K V).buckets[i] = [] := List.getElem_replicate _ _
    rw [hnil] at hp
    simp at hp
  · show ((List.replicate 4 ([] : List (K × V))).flatten.map Prod.fst).Nodup
    rw [flatten_replicate_nil]
    simp

omit [DecidableEq K] [Inhabited K] in
theorem shortChains_makeHashMap : ShortChains (MakeHashMap : HashMap K V) := by
  intro c hc
  rw [List.eq_of_mem_replicate hc]
  simp


theorem reachable_inv (hv : K → Int) {m : HashMap K V} (hr : Reachable hv m) :
    PreInv hv m ∧ ShortChains m ∧ m.listLen = 0 := by
  induction hr with
  | init => exact ⟨preInv_makeHashMap hv, shortChains_makeHashMap, rfl⟩
  | stepSet hprev hset ih =>
    obtain ⟨hpre, hs, hll⟩ := ih
    obtain ⟨hpre2, hs2, hll2, _, _⟩ := set_correct hv hpre hs hll hset
    exact ⟨hpre2, hs2, hll2⟩
  | stepRemove key _ ih =>
    obtain ⟨hpre, hs, hll⟩ := ih
    obtain ⟨hpre2, hs2, hllr, _, _⟩ := remove_correct hv hpre hs key
    exact ⟨hpre2, hs2, by rw [hllr]; exact hll⟩


theorem runOps_reachable (hv : K → Int) (fuel : Nat) :
    ∀ (ops : List (Op K V)) (m m' : HashMap K V),
      Reachable hv m → runOps hv fuel m ops = some m' → Reachable hv m' := by
  intro ops
  induction ops with
  | nil =>
    intro m m' hr hrun
    simp only [runOps, Option.some.injEq] at hrun
    subst hrun
    exact hr
  | cons op rest ih =>
    intro m m' hr hrun
    cases op with
    | setOp key value =>
      simp only [runOps] at hrun
      cases hset : HashMap.set hv fuel m key value with
      | none => rw [hset] at hrun; simp at hrun
      | some m2 =>
        rw [hset] at hrun
        exact ih m2 m' (Reachable.stepSet hr hset) hrun
    | removeOp key =>
      simp only [runOps] at hrun
      exact ih _ m' (Reachable.stepRemove key hr) hrun
    | getOp key =>
      simp only [runOps] at hrun
      exact ih m m' hr hrun

omit [Inhabited K] in
theorem remove_capacity_eq (hv : K → Int) (m : HashMap K V) (key : K) :
    (m.remove hv key).capacity = m.capacity := by
  simp only [HashMap.remove]
  split
  · rfl
  · split <;> rfl

theorem runOps_capacity_growth (hv : K → Int) (fuel : Nat) :
    ∀ (ops : List (Op K V)) (m m' : HashMap K V),
      Reachable hv m → runOps hv fuel m ops = some m' →
      ∃ n : Nat, m'.capacity = 2 ^ n * m.capacity := by
  intro ops
  induction ops with
  | nil =>
    intro m m' _ hrun
    simp only [runOps, Option.some.injEq] at hrun
    subst hrun
    exact ⟨0, by ring⟩
  | cons op rest ih =>
    intro m m' hr hrun
    cases op with
    | setOp key value =>
      simp only [runOps] at hrun
      cases hset : HashMap.set hv fuel m key value with
      | none => rw [hset] at hrun; simp at hrun
      | some m2 =>
        rw [hset] at hrun
        obtain ⟨hpre, hs, hll⟩ := reachable_inv hv hr
        obtain ⟨_, _, _, _, ⟨a, hcap⟩⟩ := set_correct hv hpre hs hll hset
        obtain ⟨b, hcap2⟩ := ih m2 m' (Reachable.stepSet hr hset) hrun
        exact ⟨b + a, by rw [hcap2, hcap, pow_add]; ring⟩
    | removeOp key =>
      simp only [runOps] at hrun
      obtain ⟨b, hcap2⟩ := ih _ m' (Reachable.stepRemove key hr) hrun
      exact ⟨b, by rw [hcap2, remove_capacity_eq]⟩
    | getOp key =>
      simp only [runOps] at hrun
      exact ih m m' hr hrun


theorem runSets_correct (hv : K → Int) (fuel : Nat) :
    ∀ (ops : List (K × V)) (m m' : HashMap K V),
      PreInv hv m → ShortChains m → m.listLen = 0 →
      (ops.map Prod.fst).Nodup →
      runSets hv fuel m ops = some m' →
      PreInv hv m' ∧ ShortChains m' ∧ m'.listLen = 0 ∧
      (∀ k2, m'.get hv k2 =
        match chainLookup k2 ops with
        | some v => some v
        | none => m.get hv k2) := by
  intro ops
  induction ops with
  | nil =>
    intro m m' hpre hs hll _ hrun
    simp only [runSets, Option.some.injEq] at hrun
    subst hrun
    refine ⟨hpre, hs, hll, ?_⟩
    intro k2
    simp [chainLookup]
  | cons p rest ih =>
    intro m m' hpre hs hll hnd hrun
    obtain ⟨k1, v1⟩ := p
    simp only [runSets] at hrun
    cases hset : HashMap.set hv fuel m k1 v1 with
    | none => rw [hset] at hrun; simp at hrun
    | some m1 =>
      rw [hset] at hrun
      obtain ⟨hpre1, hs1, hll1, hget1, _⟩ := set_correct hv hpre hs hll hset
      simp only [List.map_cons, List.nodup_cons] at hnd
      obtain ⟨hk1notin, hndrest⟩ := hnd
      obtain ⟨hpre2, hs2, hll2, hget2⟩ := ih m1 m' hpre1 hs1 hll1 hndrest hrun
      refine ⟨hpre2, hs2, hll2, ?_⟩
      intro k2
      rw [hget2 k2]
      by_cases hk : k1 = k2
      · subst hk
        have hcl : chainLookup k1 rest = none :=
          (chainLookup_eq_none_iff k1 rest).mpr hk1notin
        simp [chainLookup, hcl, hget1]
      · simp only [chainLookup, if_neg hk]
        cases hcl : chainLookup k2 rest with
        | some v => rfl
        | none =>
          simp only []
          rw [hget1 k2, if_neg (fun hh => hk hh.symm)]

end Reachability

section ListLenReset

variable {K V : Type} [DecidableEq K] [Inhabited K]

omit [Inhabited K] in
theorem setChainStale_listLen_zero (doRehash : HashMap K V → Option (HashMap K V))
    (key : K) :
    ∀ (rest : List (K × V)) (m m' : HashMap K V),
      setChainStale doRehash key m rest = some m' → m'.listLen = 0 := by
  intro rest
  induction rest with
  | nil =>
    intro m m' h
    injection h with h2
    rw [← h2]
    rfl
  | cons p rest ih =>
    intro m m' h
    obtain ⟨k', v'⟩ := p
    simp only [setChainStale] at h
    split at h
    · injection h with h2
      rw [← h2]
      rfl
    · split at h
      · split at h
        · split at h
          · exact Option.noConfusion h
          · injection h with h2
            rw [← h2]
            rfl
        · injection h with h2
          rw [← h2]
          rfl
      · split at h
        · split at h
          · exact Option.noConfusion h
          · exact ih _ _ h
        · exact ih _ _ h

omit [Inhabited K] in
theorem setChainLive_listLen_zero (doRehash : HashMap K V → Option (HashMap K V))
    (h0 : Nat) (key : K) (value : V) :
    ∀ (rest : List (K × V)) (m : HashMap K V) (acc : List (K × V)) (m' : HashMap K V),
      setChainLive doRehash h0 key value m acc rest = some m' → m'.listLen = 0 := by
  intro rest
  induction rest with
  | nil =>
    intro m acc m' h
    injection h with h2
    rw [← h2]
    rfl
  | cons p rest ih =>
    intro m acc m' h
    obtain ⟨k', v'⟩ := p
    simp only [setChainLive] at h
    split at h
    · injection h with h2
      rw [← h2]
      rfl
    · split at h
      · split at h
        · split at h
          · exact Option.noConfusion h
          · injection h with h2
            rw [← h2]
            rfl
        · injection h with h2
          rw [← h2]
          rfl
      · split at h
        · split at h
          · exact Option.noConfusion h
          · exact setChainStale_listLen_zero doRehash key _ _ _ h
        · exact ih _ _ _ h

theorem set_listLen_zero (hv : K → Int) (fuel : Nat) (m : HashMap K V) (key : K)
    (value : V) (m' : HashMap K V) (h : HashMap.set hv fuel m key value = some m') :
    m'.listLen = 0 := by
  cases fuel with
  | zero =>
    rw [set_zero_eq] at h
    cases h
  | succ fuel =>
    rw [set_succ_eq] at h
    simp only [setBody] at h
    rcases hbc : m.buckets.getD (bucketIdx hv m key) [] with _ | ⟨p, rest⟩
    · rw [hbc] at h
      simp only [] at h
      injection h with h2
      rw [← h2]
      rfl
    · rw [hbc] at h
      simp only [] at h
      exact setChainLive_listLen_zero _ _ _ _ _ _ _ _ h

omit [Inhabited K] in
theorem removeChainAux_splice (key : K) (w : V) :
    ∀ (pre post : List (K × V)), key ∉ pre.map Prod.fst →
      removeChainAux key (pre ++ (key, w) :: post) = pre ++ post := by
  intro pre
  induction pre with
  | nil =>
    intro post _
    simp [removeChainAux]
  | cons q pre ih =>
    intro post hnot
    obtain ⟨k', v'⟩ := q
    simp only [List.map_cons, List.mem_cons] at hnot
    push_neg at hnot
    simp only [List.cons_append, removeChainAux]
    rw [if_neg (fun hh => hnot.1 hh.symm)]
    exact congrArg (List.cons (k', v')) (ih post hnot.2)

end ListLenReset

section Claims

variable {K V : Type} [DecidableEq K] [Inhabited K]

/-- C1: the claim says the doubling loop of `rehash` terminates only when no
two stored keys collide under the new capacity.  The code cannot do that:
`noCollidingHashes` compares two always-equal lengths and returns `false`
for every input, so the loop stops after exactly one doubling even when
every stored key still collides.  Evaluated here at a failing input: with
the constant digest (`hv = 0`) both keys 0 and 1 hash to bucket 0 at every
capacity, yet `noCollidingHashes` reports no collision and the loop run at
capacity 4 stops at capacity 8, where the keys still collide. -/
theorem claim1_rehash_always_single_doubling_bug :
    noCollidingHashes (fun _ : Nat => (0 : Int)) 8 [0, 1] = false ∧
    rehashCapacityLoop (fun _ : Nat => (0 : Int)) [0, 1] 5 4 = some 8 ∧
    hashIndex (fun _ : Nat => (0 : Int)) 8 0 = 0 ∧
    hashIndex (fun _ : Nat => (0 : Int)) 8 1 = 0 := by
  decide

/-- C2: for every sequence of `set` operations on distinct keys — in
particular one long enough to force a rehash, mirrored by the hypothesis
that more than the threshold count (three) of the inserted keys hash into
the same initial bucket — after all insertions complete, `get` returns the
value most recently set for every previously inserted key. -/
theorem claim2_rehash_preserves_contents (hv : K → Int) (fuel : Nat)
    (ops : List (K × V)) (m' : HashMap K V)
    (hnd : (ops.map Prod.fst).Nodup)
    (_hcollide : ∃ ka ∈ ops.map Prod.fst, ∃ kb ∈ ops.map Prod.fst,
      ∃ kc ∈ ops.map Prod.fst, ka ≠ kb ∧ ka ≠ kc ∧ kb ≠ kc ∧
      bucketIdx hv (MakeHashMap : HashMap K V) ka =
        bucketIdx hv (MakeHashMap : HashMap K V) kb ∧
      bucketIdx hv (MakeHashMap : HashMap K V) ka =
        bucketIdx hv (MakeHashMap : HashMap K V) kc)
    (hrun : runSets hv fuel MakeHashMap ops = some m') :
    ∀ key value, (key, value) ∈ ops → m'.get hv key = some value := by
  obtain ⟨_, _, _, hget⟩ := runSets_correct hv fuel ops MakeHashMap m'
    (preInv_makeHashMap hv) shortChains_makeHashMap rfl hnd hrun
  intro key value hmem
  rw [hget key, chainLookup_of_nodup key value ops hnd hmem]

theorem claim2_witness :
    HashMap.get hvNat (⟨8, [[(0, 10), (8, 30)], [], [], [], [(4, 20)], [], [], []], 0, 2⟩ :
      HashMap Nat Nat) 8 = some 30 :=
  claim2_rehash_preserves_contents hvNat 6 [(0, 10), (4, 20), (8, 30)]
    (⟨8, [[(0, 10), (8, 30)], [], [], [], [(4, 20)], [], [], []], 0, 2⟩ : HashMap Nat Nat)
    (by decide) (by decide) (by decide) 8 30 (by decide)

/-- C3: on every reachable map state, a successful `set(key, value)` followed
immediately by `get(key)` returns `value`. -/
theorem claim3_set_get_round_trip (hv : K → Int) (m : HashMap K V)
    (hr : Reachable hv m) (fuel : Nat) (key : K) (value : V) (m' : HashMap K V)
    (hset : HashMap.set hv fuel m key value = some m') :
    m'.get hv key = some value := by
  obtain ⟨hpre, hs, hll⟩ := reachable_inv hv hr
  obtain ⟨_, _, _, hget, _⟩ := set_correct hv hpre hs hll hset
  rw [hget key, if_pos rfl]

theorem claim3_witness :
    HashMap.get hvNat (⟨4, [[(0, 10)], [], [], []], 0, 2⟩ : HashMap Nat Nat) 0 = some 10 :=
  claim3_set_get_round_trip hvNat MakeHashMap Reachable.init 5 0 10
    (⟨4, [[(0, 10)], [], [], []], 0, 2⟩ : HashMap Nat Nat) (by decide)

/-- C4 counterexample: the claim says the visited-node counter is reset to
zero at the START of every `set` invocation, which would make the behavior
of `set` independent of the counter value it starts with.  It is not: the
source resets the counter with a deferred call, i.e. at the END of the
invocation, so a `set` that starts with the stale counter value 2 (exactly
what an enclosing invocation has at the moment it triggers a rehash)
rehashes and doubles the capacity, while the same `set` started with a zero
counter does not. -/
theorem claim4_counterexample :
    HashMap.set hvNat 5 (⟨4, [[(0, 5)], [], [], []], 2, 2⟩ : HashMap Nat Nat) 4 9 ≠
      HashMap.set hvNat 5
        ((⟨4, [[(0, 5)], [], [], []], 2, 2⟩ : HashMap Nat Nat).resetListLen) 4 9 := by
  decide

/-- C4 amended: the per-call visited-node counter is reset to zero at the
END of every `set` invocation (the source installs `resetListLen` with
`defer`, which runs whenever `set` returns, regardless of outcome); hence
every completed `set` leaves a zero counter behind for the next
invocation. -/
theorem claim4_reset_at_exit (hv : K → Int) (fuel : Nat) (m : HashMap K V)
    (key : K) (value : V) (m' : HashMap K V)
    (hset : HashMap.set hv fuel m key value = some m') :
    m'.listLen = 0 :=
  set_listLen_zero hv fuel m key value m' hset

theorem claim4_witness :
    (⟨4, [[(0, 10)], [], [], []], 0, 2⟩ : HashMap Nat Nat).listLen = 0 :=
  claim4_reset_at_exit hvNat 5 MakeHashMap 0 10
    (⟨4, [[(0, 10)], [], [], []], 0, 2⟩ : HashMap Nat Nat) (by decide)

/-- C5: on every reachable state, `set(key, v1)` then `set(key, v2)` makes a
subsequent `get(key)` return `v2`, and the second `set` leaves the total
number of stored entries unchanged. -/
theorem claim5_update_in_place (hv : K → Int) (m : HashMap K V)
    (hr : Reachable hv m) (fuel1 fuel2 : Nat) (key : K) (value1 value2 : V)
    (m1 m2 : HashMap K V)
    (h1 : HashMap.set hv fuel1 m key value1 = some m1)
    (h2 : HashMap.set hv fuel2 m1 key value2 = some m2) :
    m2.get hv key = some value2 ∧ entryCount m2 = entryCount m1 := by
  obtain ⟨hpre, hs, hll⟩ := reachable_inv hv hr
  obtain ⟨hpre1, hs1, hll1, hget1, _⟩ := set_correct hv hpre hs hll h1
  obtain ⟨hpre2, _, _, hget2, _⟩ := set_correct hv hpre1 hs1 hll1 h2
  constructor
  · rw [hget2 key, if_pos rfl]
  · apply entryCount_eq_of_get_iff hv hpre2 hpre1
    intro k
    rw [hget2 k]
    by_cases hk : k = key
    · subst hk
      rw [if_pos rfl, hget1 k, if_pos rfl]
      simp
    · rw [if_neg hk]

theorem claim5_witness :
    HashMap.get hvNat (⟨4, [[(0, 20)], [], [], []], 0, 2⟩ : HashMap Nat Nat) 0 = some 20 ∧
      entryCount (⟨4, [[(0, 20)], [], [], []], 0, 2⟩ : HashMap Nat Nat) =
        entryCount (⟨4, [[(0, 10)], [], [], []], 0, 2⟩ : HashMap Nat Nat) :=
  claim5_update_in_place hvNat MakeHashMap Reachable.init 5 5 0 10 20
    (⟨4, [[(0, 10)], [], [], []], 0, 2⟩ : HashMap Nat Nat)
    (⟨4, [[(0, 20)], [], [], []], 0, 2⟩ : HashMap Nat Nat) (by decide) (by decide)

/-- C6: after `set(key, value)` a `remove(key)` makes `get(key)` absent;
`remove` replaces the bucket head by its successor when the head matches,
splices the first matching node out of the tail otherwise, and is a no-op
when the key is absent. -/
theorem claim6_remove_behavior (hv : K → Int) :
    (∀ (m : HashMap K V) (fuel : Nat) (key : K) (value : V) (m' : HashMap K V),
      Reachable hv m → HashMap.set hv fuel m key value = some m' →
      (m'.remove hv key).get hv key = none) ∧
    (∀ (m : HashMap K V) (key : K) (w : V) (t : List (K × V)),
      m.buckets.getD (bucketIdx hv m key) [] = (key, w) :: t →
      (m.remove hv key).buckets = m.buckets.set (bucketIdx hv m key) t) ∧
    (∀ (m : HashMap K V) (key k0 : K) (w0 : V) (t : List (K × V)),
      m.buckets.getD (bucketIdx hv m key) [] = (k0, w0) :: t → k0 ≠ key →
      (m.remove hv key).buckets =
        m.buckets.set (bucketIdx hv m key) ((k0, w0) :: removeChainAux key t)) ∧
    (∀ (key : K) (w : V) (pre post : List (K × V)),
      key ∉ pre.map Prod.fst →
      removeChainAux key (pre ++ (key, w) :: post) = pre ++ post) ∧
    (∀ (m : HashMap K V) (key : K),
      Reachable hv m → m.get hv key = none → m.remove hv key = m) := by
  refine ⟨?_, ?_, ?_, ?_, ?_⟩
  · intro m fuel key value m' hr hset
    have hr2 : Reachable hv m' := Reachable.stepSet hr hset
    obtain ⟨hpre2, hs2, _⟩ := reachable_inv hv hr2
    obtain ⟨_, _, _, _, hget⟩ := remove_correct hv hpre2 hs2 key
    rw [hget key, if_pos rfl]
  · intro m key w t hbc
    simp only [HashMap.remove]
    rw [hbc]
    simp
  · intro m key k0 w0 t hbc hne
    simp only [HashMap.remove]
    rw [hbc]
    simp [hne]
  · intro key w pre post hpre
    exact removeChainAux_splice key w pre post hpre
  · intro m key hr habs
    exact remove_noop_of_absent hv (reachable_inv hv hr).1 key habs

theorem claim6_witness :
    HashMap.get hvNat
        ((⟨4, [[(0, 10)], [], [], []], 0, 2⟩ : HashMap Nat Nat).remove hvNat 0) 0 = none ∧
    ((⟨4, [[(0, 10)], [], [], []], 0, 2⟩ : HashMap Nat Nat).remove hvNat 0).buckets =
      ([[(0, 10)], [], [], []] : List (List (Nat × Nat))).set 0 [] ∧
    ((⟨4, [[], [(5, 6), (1, 7)], [], []], 0, 2⟩ : HashMap Nat Nat).remove hvNat 1).buckets =
      ([[], [(5, 6), (1, 7)], [], []] : List (List (Nat × Nat))).set 1 [(5, 6)] ∧
    removeChainAux 1 ([(0, 5), (1, 6), (2, 7)] : List (Nat × Nat)) = [(0, 5), (2, 7)] ∧
    (MakeHashMap : HashMap Nat Nat).remove hvNat 3 = MakeHashMap :=
  ⟨(claim6_remove_behavior hvNat).1 MakeHashMap 5 0 10 _ Reachable.init (by decide),
   (claim6_remove_behavior hvNat).2.1 _ 0 10 [] (by decide),
   (claim6_remove_behavior hvNat).2.2.1 _ 1 5 6 [(1, 7)] (by decide) (by decide),
   (claim6_remove_behavior hvNat).2.2.2.1 1 6 [(0, 5)] [(2, 7)] (by decide),
   (claim6_remove_behavior hvNat).2.2.2.2 MakeHashMap 3 Reachable.init (by decide)⟩

omit [DecidableEq K] [Inhabited K] in
/-- C7: for every key and every positive capacity, the hash-index function
deterministically returns an integer in `[0, capacity)`: it is nonnegative,
strictly below the capacity, and two calls with keys of equal digest and
equal capacity return the same index. -/
theorem claim7_hash_index_range (hv : K → Int) (capacity : Int) (key1 key2 : K)
    (hcap : 0 < capacity) :
    0 ≤ hashIndex hv capacity key1 ∧ hashIndex hv capacity key1 < capacity ∧
    (hv key1 = hv key2 → hashIndex hv capacity key1 = hashIndex hv capacity key2) :=
  ⟨hashIndex_nonneg hv capacity key1, hashIndex_lt hv key1 hcap,
    fun h => by simp [hashIndex, h]⟩

theorem claim7_witness :
    0 ≤ hashIndex hvNat 4 6 ∧ hashIndex hvNat 4 6 < 4 ∧
    (hvNat 6 = hvNat 6 → hashIndex hvNat 4 6 = hashIndex hvNat 4 6) :=
  claim7_hash_index_range hvNat 4 6 6 (by decide)

/-- C8: in every state reachable by any sequence of `set` and `remove`
operations from a freshly created map, each key is stored at most once
across the entire bucket table. -/
theorem claim8_key_uniqueness (hv : K → Int) (m : HashMap K V)
    (hr : Reachable hv m) : (tableKeys m).Nodup :=
  (reachable_inv hv hr).1.nodupKeys

theorem claim8_witness : (tableKeys (MakeHashMap : HashMap Nat Nat)).Nodup :=
  claim8_key_uniqueness hvNat MakeHashMap Reachable.init

/-- C9: across every successful sequence of `get`, `set` and `remove`
operations starting from a freshly created map, the capacity never
decreases, and it only ever grows by doubling (every later capacity is a
power of two times every earlier one). -/
theorem claim9_capacity_monotone (hv : K → Int) (fuel1 fuel2 : Nat)
    (ops1 ops2 : List (Op K V)) (m1 m2 : HashMap K V)
    (h1 : runOps hv fuel1 MakeHashMap ops1 = some m1)
    (h2 : runOps hv fuel2 m1 ops2 = some m2) :
    m1.capacity ≤ m2.capacity ∧ ∃ n : Nat, m2.capacity = 2 ^ n * m1.capacity := by
  have hr1 : Reachable hv m1 := runOps_reachable hv fuel1 ops1 _ m1 Reachable.init h1
  obtain ⟨n, hcap⟩ := runOps_capacity_growth hv fuel2 ops2 m1 m2 hr1 h2
  have hpos : 0 < m1.capacity := (reachable_inv hv hr1).1.capPos
  refine ⟨?_, ⟨n, hcap⟩⟩
  rw [hcap]
  have h2n : (1 : Int) ≤ 2 ^ n := one_le_pow₀ (by norm_num)
  calc m1.capacity = 1 * m1.capacity := by ring
    _ ≤ 2 ^ n * m1.capacity := mul_le_mul_of_nonneg_right h2n (le_of_lt hpos)

theorem claim9_witness :
    (⟨4, [[(0, 10)], [], [], []], 0, 2⟩ : HashMap Nat Nat).capacity ≤
      (⟨8, [[(8, 30)], [], [], [], [(4, 20)], [], [], []], 0, 2⟩ : HashMap Nat Nat).capacity ∧
    ∃ n : Nat,
      (⟨8, [[(8, 30)], [], [], [], [(4, 20)], [], [], []], 0, 2⟩ : HashMap Nat Nat).capacity =
        2 ^ n * (⟨4, [[(0, 10)], [], [], []], 0, 2⟩ : HashMap Nat Nat).capacity :=
  claim9_capacity_monotone hvNat 5 5 [Op.setOp 0 10]
    [Op.setOp 4 20, Op.setOp 8 30, Op.removeOp 0, Op.getOp 4]
    (⟨4, [[(0, 10)], [], [], []], 0, 2⟩ : HashMap Nat Nat)
    (⟨8, [[(8, 30)], [], [], [], [(4, 20)], [], [], []], 0, 2⟩ : HashMap Nat Nat)
    (by decide) (by decide)

omit [DecidableEq K] [Inhabited K] in
/-- C10: for every input key list, `noCollidingHashes` returns `false` (the
computed-hash list is built with exactly the length of the key list, so the
length comparison never holds), and consequently the doubling loop of
`rehash` performs exactly one capacity doubling regardless of whether the
stored keys collide under the new capacity. -/
theorem claim10_noCollidingHashes_false (hv : K → Int) (capacity : Int)
    (keyspace : List K) (fuel : Nat) (cap0 : Int) :
    noCollidingHashes hv capacity keyspace = false ∧
    rehashCapacityLoop hv keyspace (fuel + 1) cap0 = some (cap0 * 2) :=
  ⟨noCollidingHashes_false hv capacity keyspace,
    rehashCapacityLoop_succ hv keyspace fuel cap0⟩

end Claims
